import Mathlib

/-!
Verification of `compress_office` (src/src/pptx.rs) against its specification.

Strings are modelled as `List Char` (Rust `&str` / `String`), byte buffers as
`List Nat` (Rust `Vec<u8>` / `&[u8]`).  The functions below are shallow
embeddings of the Rust functions of `src/src/pptx.rs`, keeping the source's
names where Lean allows.  Calls into external crates (the `image` codecs, the
standard library's UTF-8 validation) are parameters of the embedding, since
their code is not part of this repository.
-/

namespace CompressOffice

open scoped List

/-- Model of Rust `char::is_whitespace`: the Unicode `White_Space` property
(U+0009..U+000D, U+0020, U+0085, U+00A0, U+1680, U+2000..U+200A, U+2028,
U+2029, U+202F, U+205F, U+3000). -/
def isRustWhitespace (c : Char) : Bool :=
  decide ((0x9 ≤ c.toNat ∧ c.toNat ≤ 0xD) ∨ c.toNat = 0x20 ∨ c.toNat = 0x85 ∨
    c.toNat = 0xA0 ∨ c.toNat = 0x1680 ∨ (0x2000 ≤ c.toNat ∧ c.toNat ≤ 0x200A) ∨
    c.toNat = 0x2028 ∨ c.toNat = 0x2029 ∨ c.toNat = 0x202F ∨ c.toNat = 0x205F ∨
    c.toNat = 0x3000)

/-- Model of Rust `str::trim`: remove leading and trailing whitespace
(`char::is_whitespace`) from both ends. -/
def rustTrim (l : List Char) : List Char :=
  ((l.dropWhile isRustWhitespace).reverse.dropWhile isRustWhitespace).reverse

/-- Model of Rust `str::split_inclusive('\n')`: split after every newline,
keeping the `'\n'` at the end of each piece; the empty string yields no
pieces. -/
def splitIncl : List Char → List (List Char)
  | [] => []
  | c :: cs =>
    if c = '\n' then ['\n'] :: splitIncl cs
    else
      match splitIncl cs with
      | [] => [[c]]
      | l :: ls => (c :: l) :: ls

/-- Model of the per-piece map inside Rust `str::lines`: strip one trailing
`'\n'`, and a `'\r'` directly before it; a `'\r'` not followed by `'\n'` is
kept. -/
def stripNewline (l : List Char) : List Char :=
  if l.getLast? = some '\n' then
    if l.dropLast.getLast? = some '\r' then l.dropLast.dropLast else l.dropLast
  else l

/-- Model of Rust `str::lines`: `split_inclusive('\n')` with the line
terminators (`"\n"` or `"\r\n"`) removed from each piece. -/
def rustLines (s : List Char) : List (List Char) :=
  (splitIncl s).map stripNewline

/-- Embedding of `optimize_xml` (src/src/pptx.rs:268-274):
`xml.lines().map(|l| l.trim()).filter(|l| !l.is_empty()).collect::<Vec<_>>().join("")`
(joining with the empty separator is concatenation). -/
def optimize_xml (xml : List Char) : List Char :=
  (((rustLines xml).map rustTrim).filter (fun l => !l.isEmpty)).flatten

/-- Model of Rust `str::to_lowercase`, per-character.  Rust lowercases the
full Unicode string; it agrees character-wise with ASCII lowercasing on all
characters whose lowercase form could end in one of the ASCII extension
suffixes checked below, which is all that `is_image_file` inspects. -/
def lowerStr (s : List Char) : List Char := s.map Char.toLower

/-- Embedding of `is_image_file` (src/src/pptx.rs:255-264). -/
def is_image_file (filename : List Char) : Bool :=
  let lower := lowerStr filename
  ".png".toList.isSuffixOf lower || ".jpg".toList.isSuffixOf lower ||
  ".jpeg".toList.isSuffixOf lower || ".gif".toList.isSuffixOf lower ||
  ".bmp".toList.isSuffixOf lower || ".emf".toList.isSuffixOf lower ||
  ".wmf".toList.isSuffixOf lower

/-- The three entry classes of the spec's data model. -/
inductive EntryKind : Type where
  | textPart : EntryKind
  | image : EntryKind
  | other : EntryKind
deriving DecidableEq, Repr

/-- The entry classification performed by the dispatch in
`compress_pptx_with_quality` (src/src/pptx.rs:39-67): first the
case-sensitive `ends_with(".xml") || ends_with(".rels")` test, then
`is_image_file`, else passthrough (`other` models the spec's Opaque class). -/
def classifyEntry (name : List Char) : EntryKind :=
  if ".xml".toList.isSuffixOf name || ".rels".toList.isSuffixOf name then .textPart
  else if is_image_file name then .image
  else .other

/-- Image formats as distinguished by the match in `compress_image`
(src/src/pptx.rs:216-242): the `image` crate's `ImageFormat` collapsed to the
two arms the code names plus one value standing for every other variant. -/
inductive ImageFormat : Type where
  | png : ImageFormat
  | jpeg : ImageFormat
  | otherFormat : ImageFormat
deriving DecidableEq, Repr

/-- Error values of `compress_image`; each constructor corresponds to one
`anyhow::anyhow!` message in src/src/pptx.rs:194-252. -/
inductive CompressError : Type where
  | decodeFailed : CompressError
  | pngEncodeFailed : CompressError
  | jpegEncodeFailed : CompressError
  | unsupportedFormat : CompressError
  | noImprovement : CompressError
deriving DecidableEq, Repr

/-- The external `image`-crate operations `compress_image` calls, as
parameters of the embedding (their code is not part of this repository):
format sniffing (`ImageReader::with_guessed_format().format()`; the reads are
from an in-memory `Cursor`, so its `io::Result` layer cannot fail), pixel
decoding (`decode()`, `none` when decoding fails, in particular when no
format was sniffed), the lossless PNG encoder fixed at
`CompressionType::Best` / `FilterType::Adaptive`, and the JPEG encoder at a
given 0-100 quality. -/
structure Codec (Img : Type) : Type where
  guessFormat : List Nat → Option ImageFormat
  decode : List Nat → Option Img
  encodePngBest : Img → Option (List Nat)
  encodeJpeg : Nat → Img → Option (List Nat)

/-- Model of `(quality * 100.0).round() as u8` (src/src/pptx.rs:233), with
`quality : f32` modelled as a rational.  Rust `f32::round` rounds half away
from zero and the `as u8` cast saturates to `[0, 255]`; on the saturated
range this agrees with Mathlib's half-up `round`. -/
def qualityToU8 (quality : ℚ) : Nat :=
  (max 0 (min 255 (round (quality * 100)))).toNat

/-- Embedding of `compress_image` (src/src/pptx.rs:194-252): sniff the format,
decode, re-encode in the original format (PNG losslessly at the strongest
settings, JPEG at `round(quality * 100)`), fail on any other format, and fail
with `noImprovement` unless the result is strictly smaller than the input. -/
def compress_image {Img : Type} (codec : Codec Img) (data : List Nat)
    (quality : ℚ) : Except CompressError (List Nat) :=
  let format := codec.guessFormat data
  match codec.decode data with
  | none => .error .decodeFailed
  | some img =>
    let encoded : Except CompressError (List Nat) :=
      match format with
      | some .png =>
        match codec.encodePngBest img with
        | some b => .ok b
        | none => .error .pngEncodeFailed
      | some .jpeg =>
        match codec.encodeJpeg (qualityToU8 quality) img with
        | some b => .ok b
        | none => .error .jpegEncodeFailed
      | _ => .error .unsupportedFormat
    match encoded with
    | .error e => .error e
    | .ok compressed =>
      if data.length ≤ compressed.length then .error .noImprovement
      else .ok compressed

/-- One archive member: `{name, raw bytes}` as in the spec's data model. -/
structure Entry : Type where
  name : List Char
  data : List Nat
deriving DecidableEq, Repr

/-- Embedding of `CompressionStats` (src/src/pptx.rs:117-125). -/
structure CompressionStats : Type where
  total_files : Nat := 0
  xml_files : Nat := 0
  xml_saved : Nat := 0
  images_compressed : Nat := 0
  images_skipped : Nat := 0
  image_saved : Nat := 0
deriving DecidableEq, Repr

/-- The standard-library services `compress_pptx_with_quality` uses on entry
payloads, as parameters of the embedding: UTF-8 validation/decoding
(`read_to_string`, `none` on invalid UTF-8) and the byte view of a string
(`str::as_bytes`), plus the image codec. -/
structure Sys (Img : Type) : Type where
  decodeUtf8 : List Nat → Option (List Char)
  encodeUtf8 : List Char → List Nat
  codec : Codec Img

/-- The only data-dependent fatal error of the in-memory transform loop:
a TextPart entry whose bytes are not valid UTF-8
(`file.read_to_string(...)?`, src/src/pptx.rs:41).  The remaining `?` sites
of the loop are filesystem and container I/O, which the in-memory model
treats as infallible. -/
inductive PptxError : Type where
  | encodingError : PptxError
deriving DecidableEq, Repr

/-- The transform pass of `compress_pptx_with_quality`
(src/src/pptx.rs:35-72), with its observable effects reified: the entries
written through `zip_writer`, the statistics, and the list of
`progress_callback(processed, total)` invocations in call order.
`totalImages` is the pre-computed image count and `processed` the running
`processed_images` counter.  Statistics of the remaining entries are computed
first and the current entry's contribution added on top, which by
commutativity of `+` equals the source's forward accumulation.  For a
TextPart, `contents.len()` (the decoded string's byte length) equals
`e.data.length`, since `read_to_string` validates the bytes unchanged. -/
def runEntries {Img : Type} (sys : Sys Img) (quality : ℚ) (totalImages : Nat) :
    Nat → List Entry →
    Except PptxError (List Entry × CompressionStats × List (Nat × Nat))
  | _, [] => .ok ([], {}, [])
  | processed, e :: rest =>
    match classifyEntry e.name with
    | .textPart =>
      match sys.decodeUtf8 e.data with
      | none => .error .encodingError
      | some contents =>
        let optimized := optimize_xml contents
        let outData := sys.encodeUtf8 optimized
        let saved := e.data.length - outData.length
        match runEntries sys quality totalImages processed rest with
        | .error er => .error er
        | .ok (outs, st, log) =>
          .ok (⟨e.name, outData⟩ :: outs,
               { st with xml_files := st.xml_files + 1,
                         xml_saved := st.xml_saved + saved }, log)
    | .image =>
      let processed' := processed + 1
      match compress_image sys.codec e.data quality with
      | .ok img =>
        let saved := e.data.length - img.length
        match runEntries sys quality totalImages processed' rest with
        | .error er => .error er
        | .ok (outs, st, log) =>
          .ok (⟨e.name, img⟩ :: outs,
               { st with images_compressed := st.images_compressed + 1,
                         image_saved := st.image_saved + saved },
               (processed', totalImages) :: log)
      | .error _ =>
        match runEntries sys quality totalImages processed' rest with
        | .error er => .error er
        | .ok (outs, st, log) =>
          .ok (⟨e.name, e.data⟩ :: outs,
               { st with images_skipped := st.images_skipped + 1 },
               (processed', totalImages) :: log)
    | .other =>
      match runEntries sys quality totalImages processed rest with
      | .error er => .error er
      | .ok (outs, st, log) => .ok (⟨e.name, e.data⟩ :: outs, st, log)

/-- Embedding of `compress_pptx_with_quality` (src/src/pptx.rs:1-115) on an
already-parsed archive (the ordered entry list a valid ZIP yields):
pre-scan counting `is_image_file` names (src/src/pptx.rs:19-22), set
`stats.total_files = archive.len()`, then the transform pass.  The report
string, wall-clock timing and on-disk sizes are presentation on top of the
returned data and are not modelled. -/
def compress_pptx_with_quality {Img : Type} (sys : Sys Img)
    (archive : List Entry) (image_quality : ℚ) :
    Except PptxError (List Entry × CompressionStats × List (Nat × Nat)) :=
  let total_images := (archive.filter (fun e => is_image_file e.name)).length
  match runEntries sys image_quality total_images 0 archive with
  | .error er => .error er
  | .ok (outs, st, log) => .ok (outs, { st with total_files := archive.length }, log)

/-- The per-entry output of a successful transform pass: minified text for a
TextPart, the recompressed image on codec success and the original entry on
codec failure, and the unchanged entry for passthrough. -/
def okTransform {Img : Type} (sys : Sys Img) (quality : ℚ) (e : Entry) : Entry :=
  match classifyEntry e.name with
  | .textPart =>
    ⟨e.name, sys.encodeUtf8 (optimize_xml ((sys.decodeUtf8 e.data).getD []))⟩
  | .image =>
    match compress_image sys.codec e.data quality with
    | .ok img => ⟨e.name, img⟩
    | .error _ => e
  | .other => e

/-- The re-encoded buffer the match in `compress_image` produces for a given
sniffed format, before the size check: the PNG encoder at the strongest
settings for PNG, the JPEG encoder at `round(quality * 100)` for JPEG, and
nothing for any other (or no) format. -/
def encodeByFormat {Img : Type} (codec : Codec Img) (format : Option ImageFormat)
    (quality : ℚ) (img : Img) : Option (List Nat) :=
  match format with
  | some .png => codec.encodePngBest img
  | some .jpeg => codec.encodeJpeg (qualityToU8 quality) img
  | _ => none

/-- Boolean success test for `Except`, mirroring `Result::is_ok`. -/
def exceptIsOk {ε α : Type} : Except ε α → Bool
  | .ok _ => true
  | .error _ => false

/-- Every TextPart-classified entry of the list holds valid UTF-8: the
condition under which the transform pass cannot fail. -/
def textPartsDecode {Img : Type} (sys : Sys Img) (l : List Entry) : Prop :=
  ∀ e ∈ l, classifyEntry e.name = EntryKind.textPart → (sys.decodeUtf8 e.data).isSome

/-- Componentwise sum of two statistics records. -/
def addStats (a b : CompressionStats) : CompressionStats :=
  { total_files := a.total_files + b.total_files
    xml_files := a.xml_files + b.xml_files
    xml_saved := a.xml_saved + b.xml_saved
    images_compressed := a.images_compressed + b.images_compressed
    images_skipped := a.images_skipped + b.images_skipped
    image_saved := a.image_saved + b.image_saved }

/-- The statistics contribution of one entry of the transform pass. -/
def entryStats {Img : Type} (sys : Sys Img) (quality : ℚ) (e : Entry) :
    CompressionStats :=
  match classifyEntry e.name with
  | .textPart =>
    { xml_files := 1
      xml_saved := e.data.length -
        (sys.encodeUtf8 (optimize_xml ((sys.decodeUtf8 e.data).getD []))).length }
  | .image =>
    match compress_image sys.codec e.data quality with
    | .ok img => { images_compressed := 1, image_saved := e.data.length - img.length }
    | .error _ => { images_skipped := 1 }
  | .other => {}

/-- The statistics a successful transform pass accumulates over a list of
entries (without the `total_files` field, which the caller sets). -/
def statsOf {Img : Type} (sys : Sys Img) (quality : ℚ) (l : List Entry) :
    CompressionStats :=
  l.foldr (fun e acc => addStats acc (entryStats sys quality e)) {}

/-- The progress-callback invocations a transform pass performs, given the
pre-computed total and the running processed counter. -/
def logOf (totalImages : Nat) : Nat → List Entry → List (Nat × Nat)
  | _, [] => []
  | p, e :: rest =>
    if classifyEntry e.name = EntryKind.image then
      (p + 1, totalImages) :: logOf totalImages (p + 1) rest
    else logOf totalImages p rest

/-- A concrete codec for instantiating the parameterized theorems: every
buffer sniffs as PNG, decodes, and re-encodes to three bytes. -/
def pngStubCodec : Codec Unit :=
  { guessFormat := fun _ => some .png
    decode := fun _ => some ()
    encodePngBest := fun _ => some [0, 0, 0]
    encodeJpeg := fun _ _ => some [1] }

/-- A concrete codec on which every image fails to decode. -/
def failStubCodec : Codec Unit :=
  { guessFormat := fun _ => none
    decode := fun _ => none
    encodePngBest := fun _ => none
    encodeJpeg := fun _ _ => none }

/-- ASCII-only UTF-8 stub: on ASCII bytes both directions agree with real
UTF-8, which is all the concrete instantiations below use. -/
def asciiDecode (bs : List Nat) : Option (List Char) :=
  if bs.all (fun b => b < 128) then some (bs.map Char.ofNat) else none

/-- ASCII encoding, inverse of `asciiDecode` on ASCII strings. -/
def asciiEncode (cs : List Char) : List Nat := cs.map Char.toNat

/-- A concrete `Sys` with ASCII text handling and the PNG stub codec. -/
def stubSys : Sys Unit :=
  { decodeUtf8 := asciiDecode, encodeUtf8 := asciiEncode, codec := pngStubCodec }

/-- A concrete `Sys` whose image codec always fails. -/
def stubSysImgFail : Sys Unit :=
  { decodeUtf8 := asciiDecode, encodeUtf8 := asciiEncode, codec := failStubCodec }

/-- A concrete `Sys` on which UTF-8 decoding always fails. -/
def stubSysUtf8Fail : Sys Unit :=
  { decodeUtf8 := fun _ => none, encodeUtf8 := asciiEncode, codec := pngStubCodec }

/-- Negation of the whitespace predicate, used to state which characters the
minifier must preserve. -/
def nonWS (c : Char) : Bool := !isRustWhitespace c

/-- A line-break character: LF or CR, the two characters line endings are
made of. -/
def isLineBreakChar (c : Char) : Bool := c == '\n' || c == '\r'

/-- UTF-8 byte length of a string, as Rust `str::len` measures it. -/
def utf8Len (l : List Char) : Nat := (l.map Char.utf8Size).sum

theorem flatten_splitIncl (s : List Char) : (splitIncl s).flatten = s := by
  induction s with
  | nil => rfl
  | cons c cs ih =>
    by_cases h : c = '\n'
    · subst h
      simp [splitIncl, ih]
    · simp only [splitIncl, if_neg h]
      cases hs : splitIncl cs with
      | nil =>
        rw [hs] at ih
        simp only [List.flatten_nil] at ih
        simp [← ih]
      | cons l ls =>
        rw [hs] at ih
        simp only [List.flatten_cons] at ih ⊢
        simp [← ih]

theorem splitIncl_nl_dropLast (s : List Char) :
    ∀ p ∈ splitIncl s, '\n' ∉ p.dropLast := by
  induction s with
  | nil => intro p hp; simp [splitIncl] at hp
  | cons c cs ih =>
    intro p hp
    by_cases h : c = '\n'
    · subst h
      have heq : splitIncl ('\n' :: cs) = ['\n'] :: splitIncl cs := by
        simp [splitIncl]
      rw [heq, List.mem_cons] at hp
      rcases hp with hp | hp
      · subst hp
        simp
      · exact ih p hp
    · simp only [splitIncl, if_neg h] at hp
      cases hs : splitIncl cs with
      | nil =>
        rw [hs] at hp
        simp only [List.mem_cons, List.not_mem_nil, or_false] at hp
        subst hp
        simp
      | cons l ls =>
        rw [hs] at hp
        simp only [List.mem_cons] at hp
        rcases hp with rfl | hp
        · have hl : '\n' ∉ l.dropLast := ih l (hs ▸ List.mem_cons_self l ls)
          cases l with
          | nil => simp
          | cons a as =>
            intro hmem
            rw [List.dropLast_cons₂] at hmem
            rcases List.mem_cons.1 hmem with rfl | hmem
            · exact h rfl
            · exact hl (by simpa [List.dropLast_cons₂] using hmem)
        · exact ih p (hs ▸ List.mem_cons_of_mem l hp)

theorem stripNewline_sublist (p : List Char) : stripNewline p <+ p := by
  unfold stripNewline
  split
  · split
    · exact (List.dropLast_sublist _).trans (List.dropLast_sublist _)
    · exact List.dropLast_sublist _
  · exact List.Sublist.refl _

theorem stripNewline_no_nl {p : List Char} (h : '\n' ∉ p.dropLast) :
    '\n' ∉ stripNewline p := by
  unfold stripNewline
  split
  · split
    · intro hm
      exact h ((List.dropLast_sublist _).subset hm)
    · exact h
  · rename_i hlast
    rcases List.eq_nil_or_concat p with rfl | ⟨q, a, rfl⟩
    · simp
    · simp only [List.concat_eq_append] at *
      intro hm
      rcases List.mem_append.1 hm with hm | hm
      · exact h (by simpa using hm)
      · rcases List.mem_singleton.1 hm with rfl
        exact hlast (by simp)

theorem rustTrim_sublist (l : List Char) : rustTrim l <+ l := by
  unfold rustTrim
  have h2 : ((l.dropWhile isRustWhitespace).reverse.dropWhile isRustWhitespace) <+
      (l.dropWhile isRustWhitespace).reverse := List.dropWhile_sublist _
  have h3 := h2.reverse
  rw [List.reverse_reverse] at h3
  exact h3.trans (List.dropWhile_sublist _)

theorem rustTrim_concat_ws {l : List Char} {c : Char}
    (hc : isRustWhitespace c = true) : rustTrim (l ++ [c]) = rustTrim l := by
  unfold rustTrim
  rw [List.dropWhile_append]
  by_cases h : (l.dropWhile isRustWhitespace).isEmpty
  · rw [if_pos h]
    rw [List.isEmpty_iff] at h
    simp [h, List.dropWhile_cons, hc]
  · rw [if_neg h]
    rw [List.reverse_append]
    simp [List.dropWhile_cons, hc]

theorem rustTrim_stripNewline (p : List Char) :
    rustTrim (stripNewline p) = rustTrim p := by
  unfold stripNewline
  split
  · rename_i h1
    have hp : p.dropLast ++ ['\n'] = p := List.dropLast_append_getLast? _ h1
    split
    · rename_i h2
      have hq : p.dropLast.dropLast ++ ['\r'] = p.dropLast :=
        List.dropLast_append_getLast? _ h2
      calc rustTrim p.dropLast.dropLast
          = rustTrim (p.dropLast.dropLast ++ ['\r']) :=
            (rustTrim_concat_ws (by decide)).symm
        _ = rustTrim p.dropLast := by rw [hq]
        _ = rustTrim (p.dropLast ++ ['\n']) := (rustTrim_concat_ws (by decide)).symm
        _ = rustTrim p := by rw [hp]
    · calc rustTrim p.dropLast
          = rustTrim (p.dropLast ++ ['\n']) := (rustTrim_concat_ws (by decide)).symm
        _ = rustTrim p := by rw [hp]
  · rfl

theorem filter_nonWS_dropWhile (l : List Char) :
    (l.dropWhile isRustWhitespace).filter nonWS = l.filter nonWS := by
  induction l with
  | nil => rfl
  | cons c cs ih =>
    by_cases h : isRustWhitespace c
    · simp [List.dropWhile_cons, h, ih, List.filter_cons, nonWS]
    · simp [List.dropWhile_cons, h]

theorem filter_nonWS_rustTrim (l : List Char) :
    (rustTrim l).filter nonWS = l.filter nonWS := by
  unfold rustTrim
  rw [List.filter_reverse, filter_nonWS_dropWhile, List.filter_reverse,
    filter_nonWS_dropWhile, List.reverse_reverse]

theorem filter_nonWS_concat_ws {l : List Char} {c : Char}
    (hc : isRustWhitespace c = true) :
    (l ++ [c]).filter nonWS = l.filter nonWS := by
  simp [List.filter_append, List.filter_cons, nonWS, hc]

theorem filter_nonWS_stripNewline (p : List Char) :
    (stripNewline p).filter nonWS = p.filter nonWS := by
  unfold stripNewline
  split
  · rename_i h1
    have hp : p.dropLast ++ ['\n'] = p := List.dropLast_append_getLast? _ h1
    split
    · rename_i h2
      have hq : p.dropLast.dropLast ++ ['\r'] = p.dropLast :=
        List.dropLast_append_getLast? _ h2
      calc p.dropLast.dropLast.filter nonWS
          = (p.dropLast.dropLast ++ ['\r']).filter nonWS :=
            (filter_nonWS_concat_ws (by decide)).symm
        _ = p.dropLast.filter nonWS := by rw [hq]
        _ = (p.dropLast ++ ['\n']).filter nonWS :=
            (filter_nonWS_concat_ws (by decide)).symm
        _ = p.filter nonWS := by rw [hp]
    · calc p.dropLast.filter nonWS
          = (p.dropLast ++ ['\n']).filter nonWS :=
            (filter_nonWS_concat_ws (by decide)).symm
        _ = p.filter nonWS := by rw [hp]
  · rfl

theorem flatten_filter_nonEmpty (L : List (List Char)) :
    (L.filter (fun l => !l.isEmpty)).flatten = L.flatten := by
  induction L with
  | nil => rfl
  | cons p ps ih =>
    by_cases h : p.isEmpty
    · have hp : p = [] := List.isEmpty_iff.1 h
      simp [List.filter_cons, h, ih, hp]
    · simp [List.filter_cons, h, ih]

theorem flatten_map_sublist {f : List Char → List Char}
    (hf : ∀ l, f l <+ l) (L : List (List Char)) :
    (L.map f).flatten <+ L.flatten := by
  induction L with
  | nil => simp
  | cons p ps ih => simpa using List.Sublist.append (hf p) ih

theorem optimize_xml_sublist (s : List Char) : optimize_xml s <+ s := by
  unfold optimize_xml rustLines
  rw [flatten_filter_nonEmpty, List.map_map]
  conv_rhs => rw [← flatten_splitIncl s]
  exact flatten_map_sublist
    (fun l => (rustTrim_sublist _).trans (stripNewline_sublist l)) _

theorem nl_not_mem_optimize (s : List Char) : '\n' ∉ optimize_xml s := by
  unfold optimize_xml rustLines
  intro hmem
  rw [List.mem_flatten] at hmem
  obtain ⟨l, hl, hnl⟩ := hmem
  have hl' := List.mem_of_mem_filter hl
  rw [List.map_map] at hl'
  obtain ⟨p, hp, rfl⟩ := List.mem_map.1 hl'
  have h2 := splitIncl_nl_dropLast s p hp
  have h3 := stripNewline_no_nl h2
  exact h3 ((rustTrim_sublist _).subset hnl)

theorem filter_nonWS_optimize (s : List Char) :
    (optimize_xml s).filter nonWS = s.filter nonWS := by
  unfold optimize_xml rustLines
  conv_rhs => rw [← flatten_splitIncl s]
  rw [flatten_filter_nonEmpty, List.map_map, List.filter_flatten,
    List.filter_flatten, List.map_map]
  congr 1
  apply List.map_congr_left
  intro p _
  simp only [Function.comp]
  rw [filter_nonWS_rustTrim, filter_nonWS_stripNewline]

theorem head?_dropWhile_nonws {p : Char → Bool} {l : List Char} {c : Char}
    (h : (l.dropWhile p).head? = some c) : p c = false := by
  induction l with
  | nil => simp [List.dropWhile_nil] at h
  | cons a as ih =>
    rw [List.dropWhile_cons] at h
    by_cases ha : p a
    · rw [if_pos ha] at h
      exact ih h
    · rw [if_neg ha] at h
      simp only [List.head?_cons, Option.some.injEq] at h
      subst h
      exact Bool.eq_false_iff.2 ha

theorem dropWhile_eq_self_of_head {p : Char → Bool} {l : List Char} {c : Char}
    (hh : l.head? = some c) (hc : p c = false) : l.dropWhile p = l := by
  cases l with
  | nil => rfl
  | cons a as =>
    simp only [List.head?_cons, Option.some.injEq] at hh
    subst hh
    rw [List.dropWhile_cons, if_neg (by simp [hc])]

theorem rustTrim_getLast_nonws {l : List Char} {c : Char}
    (h : (rustTrim l).getLast? = some c) : isRustWhitespace c = false := by
  unfold rustTrim at h
  rw [List.getLast?_reverse] at h
  exact head?_dropWhile_nonws h

theorem rustTrim_head_nonws {l : List Char} {c : Char}
    (h : (rustTrim l).head? = some c) : isRustWhitespace c = false := by
  unfold rustTrim at h
  rw [List.head?_reverse] at h
  obtain ⟨t, ht⟩ := List.dropWhile_suffix
    (l := (l.dropWhile isRustWhitespace).reverse) (p := isRustWhitespace)
  have h2 : (l.dropWhile isRustWhitespace).reverse.getLast? = some c := by
    rw [← ht, List.getLast?_append, h]
    rfl
  rw [List.getLast?_reverse] at h2
  exact head?_dropWhile_nonws h2

theorem rustTrim_eq_self {l : List Char}
    (h1 : ∀ c, l.head? = some c → isRustWhitespace c = false)
    (h2 : ∀ c, l.getLast? = some c → isRustWhitespace c = false) :
    rustTrim l = l := by
  cases l with
  | nil => rfl
  | cons a as =>
    unfold rustTrim
    rw [dropWhile_eq_self_of_head (l := a :: as) (c := a) rfl (h1 a rfl)]
    cases hg : (a :: as).getLast? with
    | none => simp at hg
    | some b =>
      rw [dropWhile_eq_self_of_head (l := (a :: as).reverse) (c := b)
        (by rw [List.head?_reverse]; exact hg) (h2 b hg)]
      exact List.reverse_reverse _

theorem splitIncl_eq_single {t : List Char} (h : '\n' ∉ t) (hne : t ≠ []) :
    splitIncl t = [t] := by
  induction t with
  | nil => exact absurd rfl hne
  | cons c cs ih =>
    have hc : ¬ (c = '\n') := fun e => h (e ▸ List.mem_cons_self c cs)
    simp only [splitIncl, if_neg hc]
    by_cases hcs : cs = []
    · subst hcs
      rfl
    · rw [ih (fun m => h (List.mem_cons_of_mem c m)) hcs]

theorem flatten_pieces_ends {L : List (List Char)}
    (h : ∀ l ∈ L, l ≠ [] ∧
      (∀ c, l.head? = some c → isRustWhitespace c = false) ∧
      (∀ c, l.getLast? = some c → isRustWhitespace c = false)) :
    (∀ c, L.flatten.head? = some c → isRustWhitespace c = false) ∧
    (∀ c, L.flatten.getLast? = some c → isRustWhitespace c = false) := by
  induction L with
  | nil => simp
  | cons p ps ih =>
    obtain ⟨hpne, hph, hpl⟩ := h p (List.mem_cons_self p ps)
    have ihh := ih (fun l hl => h l (List.mem_cons_of_mem p hl))
    constructor
    · intro c hc
      rw [List.flatten_cons, List.head?_append] at hc
      cases hp : p.head? with
      | none => exact absurd (List.head?_eq_none_iff.1 hp) hpne
      | some b =>
        rw [hp] at hc
        simp only [Option.or_some, Option.some.injEq] at hc
        subst hc
        exact hph b hp
    · intro c hc
      rw [List.flatten_cons, List.getLast?_append] at hc
      cases hps : ps.flatten.getLast? with
      | none =>
        rw [hps, Option.none_or] at hc
        exact hpl c hc
      | some b =>
        rw [hps] at hc
        simp only [Option.or_some, Option.some.injEq] at hc
        subst hc
        exact ihh.2 b hps

theorem optimize_xml_ends (s : List Char) :
    (∀ c, (optimize_xml s).head? = some c → isRustWhitespace c = false) ∧
    (∀ c, (optimize_xml s).getLast? = some c → isRustWhitespace c = false) := by
  unfold optimize_xml
  apply flatten_pieces_ends
  intro l hl
  obtain ⟨hmem, hne⟩ := List.mem_filter.1 hl
  obtain ⟨m, _, rfl⟩ := List.mem_map.1 hmem
  refine ⟨fun e => by simp [e] at hne, ?_, ?_⟩
  · exact fun c hc => rustTrim_head_nonws hc
  · exact fun c hc => rustTrim_getLast_nonws hc

/-- C9: Minifier idempotence: for every input string s, applying the XML
minifier to its own output yields the same string. -/
theorem optimize_xml_idem (s : List Char) :
    optimize_xml (optimize_xml s) = optimize_xml s := by
  by_cases ht : optimize_xml s = []
  · rw [ht]
    rfl
  · have hnl : '\n' ∉ optimize_xml s := nl_not_mem_optimize s
    have hends := optimize_xml_ends s
    conv_lhs => rw [optimize_xml, rustLines, splitIncl_eq_single hnl ht]
    have hsn : stripNewline (optimize_xml s) = optimize_xml s := by
      unfold stripNewline
      rw [if_neg]
      intro hg
      have := hends.2 '\n' hg
      simp [isRustWhitespace] at this
    rw [List.map_cons, List.map_nil, hsn, List.map_cons, List.map_nil,
      rustTrim_eq_self hends.1 hends.2, List.filter_cons,
      if_pos (by simp [List.isEmpty_iff, ht]), List.filter_nil]
    simp

/-- C7 (counterexample): the claim that the minifier output contains no
line-break characters fails: a carriage return in the middle of a line
survives minification, because `str::lines` only breaks at `'\n'` and
`str::trim` only touches the ends of a line. -/
theorem minifier_linebreak_counterexample :
    isLineBreakChar '\r' = true ∧
    optimize_xml ("a\rb".toList) = "a\rb".toList ∧
    '\r' ∈ optimize_xml ("a\rb".toList) := by decide

/-- C7 (amended): the minifier output contains no newline (LF) characters,
and it contains exactly the non-whitespace characters of the input in their
original order. -/
theorem minifier_safety_amended (s : List Char) :
    '\n' ∉ optimize_xml s ∧
    (optimize_xml s).filter nonWS = s.filter nonWS :=
  ⟨nl_not_mem_optimize s, filter_nonWS_optimize s⟩

/-- C10: the minifier never grows its input: the output is a sublist of the
input, so both its UTF-8 byte length and its character count are bounded by
the input's. -/
theorem minifier_never_grows (s : List Char) :
    utf8Len (optimize_xml s) ≤ utf8Len s ∧
    (optimize_xml s).length ≤ s.length := by
  have hsub := optimize_xml_sublist s
  refine ⟨?_, hsub.length_le⟩
  exact List.Sublist.sum_le_sum (hsub.map Char.utf8Size)
    (fun a _ => Nat.zero_le a)

theorem suffix_of_suffix_length_le {l₁ l₂ l₃ : List Char} (h1 : l₁ <:+ l₃)
    (h2 : l₂ <:+ l₃) (h : l₁.length ≤ l₂.length) : l₁ <:+ l₂ := by
  rw [← List.reverse_prefix] at h1 h2 ⊢
  exact List.prefix_of_prefix_length_le h1 h2 (by simpa using h)

theorem suffix_clash {a b s : List Char} (ha : a <:+ s) (hb : b <:+ s)
    (hab : a.length ≤ b.length) (hno : a.isSuffixOf b = false) : False := by
  have h := suffix_of_suffix_length_le ha hb hab
  rw [← List.isSuffixOf_iff_suffix, hno] at h
  exact Bool.false_ne_true h

theorem lowerStr_suffix {t name : List Char} (h : t <:+ name) :
    t.map Char.toLower <:+ lowerStr name := by
  obtain ⟨u, rfl⟩ := h
  exact ⟨u.map Char.toLower, by simp [lowerStr]⟩

/-- A name satisfying `is_image_file` cannot also pass the case-sensitive
`.xml`-or-`.rels` test: the two suffix families cannot end the same string. -/
theorem image_not_text {name : List Char} (h : is_image_file name = true) :
    (".xml".toList.isSuffixOf name || ".rels".toList.isSuffixOf name) = false := by
  unfold is_image_file at h
  simp only [Bool.or_eq_true, List.isSuffixOf_iff_suffix] at h
  rw [Bool.or_eq_false_iff]
  constructor
  · by_contra hx
    rw [Bool.not_eq_false, List.isSuffixOf_iff_suffix] at hx
    have hmap : ".xml".toList.map Char.toLower = ".xml".toList := by decide
    have hx' : ".xml".toList <:+ lowerStr name := hmap ▸ lowerStr_suffix hx
    rcases h with ((((((h | h) | h) | h) | h) | h) | h)
    · exact suffix_clash hx' h (by decide) (by decide)
    · exact suffix_clash hx' h (by decide) (by decide)
    · exact suffix_clash hx' h (by decide) (by decide)
    · exact suffix_clash hx' h (by decide) (by decide)
    · exact suffix_clash hx' h (by decide) (by decide)
    · exact suffix_clash hx' h (by decide) (by decide)
    · exact suffix_clash hx' h (by decide) (by decide)
  · by_contra hx
    rw [Bool.not_eq_false, List.isSuffixOf_iff_suffix] at hx
    have hmap : ".rels".toList.map Char.toLower = ".rels".toList := by decide
    have hx' : ".rels".toList <:+ lowerStr name := hmap ▸ lowerStr_suffix hx
    rcases h with ((((((h | h) | h) | h) | h) | h) | h)
    · exact suffix_clash h hx' (by decide) (by decide)
    · exact suffix_clash h hx' (by decide) (by decide)
    · exact suffix_clash h hx' (by decide) (by decide)
    · exact suffix_clash h hx' (by decide) (by decide)
    · exact suffix_clash h hx' (by decide) (by decide)
    · exact suffix_clash h hx' (by decide) (by decide)
    · exact suffix_clash h hx' (by decide) (by decide)

theorem classifyEntry_eq (name : List Char) :
    classifyEntry name =
      (if (".xml".toList.isSuffixOf name || ".rels".toList.isSuffixOf name) = true
       then EntryKind.textPart
       else if is_image_file name = true then EntryKind.image
       else EntryKind.other) := rfl

theorem classify_image_iff (name : List Char) :
    classifyEntry name = EntryKind.image ↔ is_image_file name = true := by
  rw [classifyEntry_eq]
  cases ht : (".xml".toList.isSuffixOf name || ".rels".toList.isSuffixOf name) with
  | true =>
    have hb2 : is_image_file name = false := by
      cases hb : is_image_file name
      · rfl
      · rw [image_not_text hb] at ht
        exact absurd ht Bool.false_ne_true
    simp [hb2]
  | false =>
    cases hb : is_image_file name <;> simp [hb]

/-- C4 (counterexample): the claim that classification is case-insensitive
fails for the TextPart class: `"a.XML"` lowercases to `"a.xml"`, whose
suffix is `.xml`, so the claim demands TextPart, but the code's
`ends_with(".xml")` test is case-sensitive and the name is classified
Opaque. -/
theorem classifier_counterexample :
    ".xml".toList.isSuffixOf (lowerStr "a.XML".toList) = true ∧
    classifyEntry "a.XML".toList = EntryKind.other ∧
    classifyEntry "a.XML".toList ≠ EntryKind.textPart := by decide

/-- C4 (amended): classification is a pure function of the name's suffixes,
but only the Image test is case-insensitive: a name is TextPart iff it ends
in `.xml` or `.rels` exactly (case-sensitively); it is Image iff its
lowercased form ends in one of the seven image extensions; every other name
is Opaque. -/
theorem classifier_amended (name : List Char) :
    (classifyEntry name = EntryKind.textPart ↔
      (".xml".toList.isSuffixOf name || ".rels".toList.isSuffixOf name) = true) ∧
    (classifyEntry name = EntryKind.image ↔
      (".png".toList.isSuffixOf (lowerStr name) ||
       ".jpg".toList.isSuffixOf (lowerStr name) ||
       ".jpeg".toList.isSuffixOf (lowerStr name) ||
       ".gif".toList.isSuffixOf (lowerStr name) ||
       ".bmp".toList.isSuffixOf (lowerStr name) ||
       ".emf".toList.isSuffixOf (lowerStr name) ||
       ".wmf".toList.isSuffixOf (lowerStr name)) = true) ∧
    (classifyEntry name = EntryKind.other ↔
      (".xml".toList.isSuffixOf name || ".rels".toList.isSuffixOf name) = false ∧
      is_image_file name = false) := by
  have hexp : is_image_file name =
      (".png".toList.isSuffixOf (lowerStr name) ||
       ".jpg".toList.isSuffixOf (lowerStr name) ||
       ".jpeg".toList.isSuffixOf (lowerStr name) ||
       ".gif".toList.isSuffixOf (lowerStr name) ||
       ".bmp".toList.isSuffixOf (lowerStr name) ||
       ".emf".toList.isSuffixOf (lowerStr name) ||
       ".wmf".toList.isSuffixOf (lowerStr name)) := rfl
  rw [← hexp, classifyEntry_eq]
  cases ht : (".xml".toList.isSuffixOf name || ".rels".toList.isSuffixOf name) with
  | true =>
    have hb2 : is_image_file name = false := by
      cases hb : is_image_file name
      · rfl
      · rw [image_not_text hb] at ht
        exact absurd ht Bool.false_ne_true
    simp [hb2]
  | false =>
    cases hb : is_image_file name <;> simp [hb]

theorem compress_image_ok_lt {Img : Type} (codec : Codec Img) (data : List Nat)
    (quality : ℚ) (out : List Nat)
    (h : compress_image codec data quality = .ok out) :
    out.length < data.length := by
  simp only [compress_image] at h
  split at h
  · exact absurd h (by simp)
  · split at h
    · exact absurd h (by simp)
    · split at h
      · exact absurd h (by simp)
      · rename_i hlen
        simp only [Except.ok.injEq] at h
        subst h
        omega

theorem compress_image_noImprovement {Img : Type} (codec : Codec Img)
    (data : List Nat) (quality : ℚ) (img : Img) (enc : List Nat)
    (hdec : codec.decode data = some img)
    (henc : encodeByFormat codec (codec.guessFormat data) quality img = some enc)
    (hlen : data.length ≤ enc.length) :
    compress_image codec data quality = .error .noImprovement := by
  simp only [compress_image, hdec]
  cases hf : codec.guessFormat data with
  | none =>
    rw [hf] at henc
    simp [encodeByFormat] at henc
  | some f =>
    rw [hf] at henc
    cases f with
    | png =>
      simp only [encodeByFormat] at henc
      simp only [henc]
      rw [if_pos hlen]
    | jpeg =>
      simp only [encodeByFormat] at henc
      simp only [henc]
      rw [if_pos hlen]
    | otherFormat =>
      simp [encodeByFormat] at henc

/-- C3: Recompressor non-regression: a successful `compress_image` always
returns a buffer strictly smaller than its input, and whenever the
re-encoded buffer is not strictly smaller than the input the function fails
with `noImprovement` instead of returning it. -/
theorem recompressor_nonregression {Img : Type} (codec : Codec Img)
    (data : List Nat) (quality : ℚ) :
    (∀ out, compress_image codec data quality = .ok out →
      out.length < data.length) ∧
    (∀ img enc, codec.decode data = some img →
      encodeByFormat codec (codec.guessFormat data) quality img = some enc →
      data.length ≤ enc.length →
      compress_image codec data quality = .error .noImprovement) :=
  ⟨fun out h => compress_image_ok_lt codec data quality out h,
   fun img enc h1 h2 h3 =>
     compress_image_noImprovement codec data quality img enc h1 h2 h3⟩

/-- C3 (witness): on a codec whose encoder yields three bytes, a two-byte
input fails with `noImprovement`. -/
theorem recompressor_nonregression_witness :
    compress_image pngStubCodec [5, 6] 0 = .error .noImprovement :=
  (recompressor_nonregression pngStubCodec [5, 6] 0).2 () [0, 0, 0] rfl rfl
    (by decide)

/-- C5: Format-preserving re-encode rule: a PNG-sniffed input is re-encoded
by the lossless best-compression PNG encoder with the quality parameter
having no effect; a JPEG-sniffed input is re-encoded by the JPEG encoder at
`round(quality * 100)` saturated to `u8` (which equals `round(quality*100)`
for quality in `[0,1]`); any other sniffed outcome never yields a successful
result. -/
theorem format_preserving_reencode {Img : Type} (codec : Codec Img)
    (data : List Nat) :
    (codec.guessFormat data = some ImageFormat.png →
      ∀ q₁ q₂ : ℚ, compress_image codec data q₁ = compress_image codec data q₂) ∧
    (∀ (quality : ℚ) (img : Img) (enc : List Nat),
      codec.guessFormat data = some ImageFormat.png →
      codec.decode data = some img → codec.encodePngBest img = some enc →
      enc.length < data.length →
      compress_image codec data quality = .ok enc) ∧
    (∀ (quality : ℚ) (img : Img) (enc : List Nat),
      codec.guessFormat data = some ImageFormat.jpeg →
      codec.decode data = some img →
      codec.encodeJpeg (qualityToU8 quality) img = some enc →
      enc.length < data.length →
      compress_image codec data quality = .ok enc) ∧
    ((codec.guessFormat data = some ImageFormat.otherFormat ∨
      codec.guessFormat data = none) →
      ∀ (quality : ℚ) (out : List Nat),
        compress_image codec data quality ≠ .ok out) ∧
    (∀ q : ℚ, 0 ≤ q → q ≤ 1 → (qualityToU8 q : ℤ) = round (q * 100)) := by
  refine ⟨?_, ?_, ?_, ?_, ?_⟩
  · intro hf q₁ q₂
    simp only [compress_image, hf]
  · intro quality img enc hf hdec henc hlen
    simp only [compress_image, hf, hdec, henc]
    rw [if_neg (by omega)]
  · intro quality img enc hf hdec henc hlen
    simp only [compress_image, hf, hdec, henc]
    rw [if_neg (by omega)]
  · intro hf quality out h
    rcases hf with hf | hf
    · simp only [compress_image, hf] at h
      cases hd : codec.decode data with
      | none => rw [hd] at h; exact absurd h (by simp)
      | some img => rw [hd] at h; exact absurd h (by simp)
    · simp only [compress_image, hf] at h
      cases hd : codec.decode data with
      | none => rw [hd] at h; exact absurd h (by simp)
      | some img => rw [hd] at h; exact absurd h (by simp)
  · intro q h0 h1
    have hr0 : (0 : ℤ) ≤ round (q * 100) := by
      rw [round_eq]
      exact Int.floor_nonneg.2 (by nlinarith)
    have hr255 : round (q * 100) ≤ 255 := by
      rw [round_eq]
      rw [Int.floor_le_iff]
      push_cast
      nlinarith
    unfold qualityToU8
    rw [min_eq_right hr255, max_eq_right hr0, Int.toNat_of_nonneg hr0]

/-- C5 (witness): concrete instantiation of the PNG conjuncts. -/
theorem format_preserving_reencode_witness :
    compress_image pngStubCodec [5, 6, 7, 8] (1/2) = .ok [0, 0, 0] ∧
    compress_image pngStubCodec [5, 6, 7, 8] (1/3) =
      compress_image pngStubCodec [5, 6, 7, 8] (2/3) ∧
    (qualityToU8 (1/2) : ℤ) = round ((1/2 : ℚ) * 100) :=
  ⟨(format_preserving_reencode pngStubCodec [5, 6, 7, 8]).2.1 (1/2) () [0, 0, 0]
      rfl rfl rfl (by decide),
   (format_preserving_reencode pngStubCodec [5, 6, 7, 8]).1 rfl (1/3) (2/3),
   (format_preserving_reencode pngStubCodec [5, 6, 7, 8]).2.2.2.2 (1/2)
      (by norm_num) (by norm_num)⟩

theorem runEntries_ok {Img : Type} (sys : Sys Img) (q : ℚ) (T : Nat) :
    ∀ (l : List Entry) (p : Nat), textPartsDecode sys l →
      runEntries sys q T p l =
        .ok (l.map (okTransform sys q), statsOf sys q l, logOf T p l) := by
  intro l
  induction l with
  | nil => intro p _; simp [runEntries, statsOf, logOf]
  | cons e rest ih =>
    intro p h
    have hrest : textPartsDecode sys rest := fun e' he' hc' =>
      h e' (List.mem_cons_of_mem _ he') hc'
    cases hc : classifyEntry e.name with
    | textPart =>
      have hdec := h e (List.mem_cons_self e rest) hc
      rw [Option.isSome_iff_exists] at hdec
      obtain ⟨contents, hd⟩ := hdec
      simp only [runEntries, hc, hd, ih p hrest]
      simp [okTransform, statsOf, entryStats, addStats, logOf, hc, hd]
    | image =>
      cases hcomp : compress_image sys.codec e.data q with
      | ok img =>
        simp only [runEntries, hc, hcomp, ih (p + 1) hrest]
        simp [okTransform, statsOf, entryStats, addStats, logOf, hc, hcomp]
      | error er =>
        simp only [runEntries, hc, hcomp, ih (p + 1) hrest]
        simp [okTransform, statsOf, entryStats, addStats, logOf, hc, hcomp]
    | other =>
      simp only [runEntries, hc, ih p hrest]
      simp [okTransform, statsOf, entryStats, addStats, logOf, hc]

theorem runEntries_error {Img : Type} (sys : Sys Img) (q : ℚ) (T : Nat) :
    ∀ (l : List Entry) (p : Nat), ¬ textPartsDecode sys l →
      runEntries sys q T p l = .error .encodingError := by
  intro l
  induction l with
  | nil =>
    intro p h
    exact absurd (fun e he => absurd he (List.not_mem_nil e)) h
  | cons e rest ih =>
    intro p h
    by_cases he : classifyEntry e.name = EntryKind.textPart ∧
      sys.decodeUtf8 e.data = none
    · obtain ⟨hc, hd⟩ := he
      simp [runEntries, hc, hd]
    · have hrest : ¬ textPartsDecode sys rest := by
        intro hr
        apply h
        intro e' he' hc'
        rcases List.mem_cons.1 he' with hm | hm
        · subst hm
          cases hdd : sys.decodeUtf8 e'.data with
          | none => exact absurd ⟨hc', hdd⟩ he
          | some c => simp [hdd]
        · exact hr e' hm hc'
      cases hc : classifyEntry e.name with
      | textPart =>
        cases hd : sys.decodeUtf8 e.data with
        | none => exact absurd ⟨hc, hd⟩ he
        | some contents => simp [runEntries, hc, hd, ih p hrest]
      | image =>
        cases hcomp : compress_image sys.codec e.data q with
        | ok img => simp [runEntries, hc, hcomp, ih (p + 1) hrest]
        | error er => simp [runEntries, hc, hcomp, ih (p + 1) hrest]
      | other => simp [runEntries, hc, ih p hrest]

theorem compress_ok {Img : Type} (sys : Sys Img) (archive : List Entry) (q : ℚ)
    (h : textPartsDecode sys archive) :
    compress_pptx_with_quality sys archive q =
      .ok (archive.map (okTransform sys q),
           { statsOf sys q archive with total_files := archive.length },
           logOf (archive.filter (fun e => is_image_file e.name)).length 0 archive) := by
  simp only [compress_pptx_with_quality]
  rw [runEntries_ok sys q _ archive 0 h]

theorem compress_error {Img : Type} (sys : Sys Img) (archive : List Entry)
    (q : ℚ) (h : ¬ textPartsDecode sys archive) :
    compress_pptx_with_quality sys archive q = .error .encodingError := by
  simp only [compress_pptx_with_quality]
  rw [runEntries_error sys q _ archive 0 h]

theorem okTransform_name {Img : Type} (sys : Sys Img) (q : ℚ) (e : Entry) :
    (okTransform sys q e).name = e.name := by
  unfold okTransform
  cases classifyEntry e.name with
  | textPart => rfl
  | image => cases compress_image sys.codec e.data q <;> rfl
  | other => rfl

theorem statsOf_images_skipped {Img : Type} (sys : Sys Img) (q : ℚ)
    (l : List Entry) :
    (statsOf sys q l).images_skipped =
      l.countP (fun e => decide (classifyEntry e.name = EntryKind.image) &&
        !exceptIsOk (compress_image sys.codec e.data q)) := by
  induction l with
  | nil => rfl
  | cons e rest ih =>
    have hstep : statsOf sys q (e :: rest) =
        addStats (statsOf sys q rest) (entryStats sys q e) := rfl
    rw [hstep, List.countP_cons]
    cases hc : classifyEntry e.name with
    | textPart => simp [addStats, entryStats, hc, ih]
    | image =>
      cases hcomp : compress_image sys.codec e.data q with
      | ok img => simp [addStats, entryStats, hc, hcomp, ih, exceptIsOk]
      | error er => simp [addStats, entryStats, hc, hcomp, ih, exceptIsOk]
    | other => simp [addStats, entryStats, hc, ih]

theorem logOf_eq (T : Nat) :
    ∀ (l : List Entry) (p : Nat),
      logOf T p l = (List.range (l.countP (fun e =>
        decide (classifyEntry e.name = EntryKind.image)))).map
        (fun k => (p + k + 1, T)) := by
  intro l
  induction l with
  | nil => intro p; rfl
  | cons e rest ih =>
    intro p
    by_cases hc : classifyEntry e.name = EntryKind.image
    · have hcnt : List.countP
          (fun e' => decide (classifyEntry e'.name = EntryKind.image)) (e :: rest) =
          List.countP
            (fun e' => decide (classifyEntry e'.name = EntryKind.image)) rest + 1 := by
        simp [List.countP_cons, hc]
      simp only [logOf]
      rw [if_pos hc, ih (p + 1), hcnt, List.range_succ_eq_map, List.map_cons,
        List.map_map]
      congr 1
      apply List.map_congr_left
      intro a _
      have h2 : p + 1 + a + 1 = p + (a + 1) + 1 := by omega
      simp [Function.comp, Nat.succ_eq_add_one, h2]
    · have hcnt : List.countP
          (fun e' => decide (classifyEntry e'.name = EntryKind.image)) (e :: rest) =
          List.countP
            (fun e' => decide (classifyEntry e'.name = EntryKind.image)) rest := by
        simp [List.countP_cons, hc]
      simp only [logOf]
      rw [if_neg hc, ih p, hcnt]

/-- C1: Entry-count conservation: a successful run writes exactly one output
entry per input entry, with the same name, in the same order (hence the same
name multiset); nothing is added or dropped. -/
theorem entry_count_conservation {Img : Type} (sys : Sys Img)
    (archive : List Entry) (quality : ℚ) (outs : List Entry)
    (st : CompressionStats) (log : List (Nat × Nat))
    (h : compress_pptx_with_quality sys archive quality = .ok (outs, st, log)) :
    outs.map Entry.name = archive.map Entry.name := by
  by_cases htext : textPartsDecode sys archive
  · rw [compress_ok sys archive quality htext] at h
    simp only [Except.ok.injEq, Prod.mk.injEq] at h
    obtain ⟨h1, -, -⟩ := h
    subst h1
    rw [List.map_map]
    exact List.map_congr_left (fun e _ => okTransform_name sys quality e)
  · rw [compress_error sys archive quality htext] at h
    exact absurd h (by simp)

/-- C1 (witness): instantiation on a one-entry archive. -/
theorem entry_count_conservation_witness :
    ([⟨"x.bin".toList, [9]⟩] : List Entry).map Entry.name =
      ([⟨"x.bin".toList, [9]⟩] : List Entry).map Entry.name :=
  entry_count_conservation stubSys [⟨"x.bin".toList, [9]⟩] 0
    [⟨"x.bin".toList, [9]⟩] { total_files := 1 } [] rfl

/-- C2: Per-image failure recovery: when every TextPart decodes (so the only
fatal error source is absent), the run succeeds no matter how many images
fail to compress; every Image entry whose `compress_image` fails is written
back byte-identically, and the skipped tally counts exactly those images. -/
theorem image_failure_recovery {Img : Type} (sys : Sys Img)
    (archive : List Entry) (quality : ℚ)
    (htext : textPartsDecode sys archive) :
    ∃ outs st log,
      compress_pptx_with_quality sys archive quality = .ok (outs, st, log) ∧
      st.images_skipped = archive.countP (fun e =>
        decide (classifyEntry e.name = EntryKind.image) &&
        !exceptIsOk (compress_image sys.codec e.data quality)) ∧
      ∀ i (hi : i < archive.length),
        classifyEntry (archive[i]).name = EntryKind.image →
        exceptIsOk (compress_image sys.codec (archive[i]).data quality) = false →
        outs[i]? = some (archive[i]) := by
  refine ⟨_, _, _, compress_ok sys archive quality htext, ?_, ?_⟩
  · simpa using statsOf_images_skipped sys quality archive
  · intro i hi hc hfail
    rw [List.getElem?_map, List.getElem?_eq_getElem hi]
    simp only [Option.map_some']
    congr 1
    unfold okTransform
    rw [hc]
    cases hcomp : compress_image sys.codec (archive[i]).data quality with
    | ok img => simp [exceptIsOk, hcomp] at hfail
    | error er => rfl

/-- C2 (witness): one image entry whose codec fails: the run succeeds, the
entry is copied unchanged and counted as skipped. -/
theorem image_failure_recovery_witness :
    ∃ outs st log,
      compress_pptx_with_quality stubSysImgFail
        [⟨"m/a.png".toList, [1, 2]⟩] 0 = .ok (outs, st, log) ∧
      st.images_skipped = ([⟨"m/a.png".toList, [1, 2]⟩] : List Entry).countP
        (fun e => decide (classifyEntry e.name = EntryKind.image) &&
          !exceptIsOk (compress_image stubSysImgFail.codec e.data 0)) ∧
      ∀ i (hi : i < ([⟨"m/a.png".toList, [1, 2]⟩] : List Entry).length),
        classifyEntry (([⟨"m/a.png".toList, [1, 2]⟩] : List Entry)[i]).name =
          EntryKind.image →
        exceptIsOk (compress_image stubSysImgFail.codec
          (([⟨"m/a.png".toList, [1, 2]⟩] : List Entry)[i]).data 0) = false →
        outs[i]? = some (([⟨"m/a.png".toList, [1, 2]⟩] : List Entry)[i]) :=
  image_failure_recovery stubSysImgFail [⟨"m/a.png".toList, [1, 2]⟩] 0
    (by intro e he hc
        rw [List.mem_singleton] at he
        subst he
        exact absurd hc (by decide))

/-- C6: Progress callback protocol: a successful run invokes the callback
with exactly `(1, T), (2, T), ..., (T, T)` in that order, where `T` is the
pre-scan count of `is_image_file` names, and that count equals the number of
image-classified entries (so one invocation per Image entry, none when there
are no images). -/
theorem progress_callback_protocol {Img : Type} (sys : Sys Img)
    (archive : List Entry) (quality : ℚ) (outs : List Entry)
    (st : CompressionStats) (log : List (Nat × Nat))
    (h : compress_pptx_with_quality sys archive quality = .ok (outs, st, log)) :
    log = (List.range ((archive.filter (fun e => is_image_file e.name)).length)).map
        (fun k => (k + 1, (archive.filter (fun e => is_image_file e.name)).length)) ∧
    (archive.filter (fun e => is_image_file e.name)).length =
      archive.countP (fun e => decide (classifyEntry e.name = EntryKind.image)) := by
  have hcount : (archive.filter (fun e => is_image_file e.name)).length =
      archive.countP (fun e => decide (classifyEntry e.name = EntryKind.image)) := by
    rw [← List.countP_eq_length_filter]
    exact List.countP_congr (fun e _ => by simp [classify_image_iff])
  refine ⟨?_, hcount⟩
  by_cases htext : textPartsDecode sys archive
  · rw [compress_ok sys archive quality htext] at h
    simp only [Except.ok.injEq, Prod.mk.injEq] at h
    obtain ⟨-, -, h3⟩ := h
    rw [← h3, hcount, logOf_eq]
    exact List.map_congr_left (fun a _ => by simp)
  · rw [compress_error sys archive quality htext] at h
    exact absurd h (by simp)

/-- C6 (witness): a one-image archive produces exactly the call `(1, 1)`. -/
theorem progress_callback_protocol_witness :
    ([(1, 1)] : List (Nat × Nat)) =
      (List.range ((([⟨"a.png".toList, [1, 2, 3, 4]⟩] : List Entry).filter
        (fun e => is_image_file e.name)).length)).map
        (fun k => (k + 1, (([⟨"a.png".toList, [1, 2, 3, 4]⟩] : List Entry).filter
          (fun e => is_image_file e.name)).length)) ∧
    (([⟨"a.png".toList, [1, 2, 3, 4]⟩] : List Entry).filter
        (fun e => is_image_file e.name)).length =
      ([⟨"a.png".toList, [1, 2, 3, 4]⟩] : List Entry).countP
        (fun e => decide (classifyEntry e.name = EntryKind.image)) :=
  progress_callback_protocol stubSys [⟨"a.png".toList, [1, 2, 3, 4]⟩] 0
    [⟨"a.png".toList, [0, 0, 0]⟩]
    { total_files := 1, images_compressed := 1, image_saved := 1 }
    [(1, 1)] rfl

/-- C8: Invalid UTF-8 is fatal: one TextPart entry whose bytes fail UTF-8
decoding makes the whole operation return the encoding error to the caller,
regardless of the rest of the archive. -/
theorem invalid_utf8_fatal {Img : Type} (sys : Sys Img) (archive : List Entry)
    (quality : ℚ) (e : Entry) (he : e ∈ archive)
    (hc : classifyEntry e.name = EntryKind.textPart)
    (hd : sys.decodeUtf8 e.data = none) :
    compress_pptx_with_quality sys archive quality = .error .encodingError := by
  apply compress_error
  intro htext
  have hs := htext e he hc
  rw [hd] at hs
  exact absurd hs (by simp)

/-- C8 (witness): a single `.xml` entry with undecodable bytes aborts the
run. -/
theorem invalid_utf8_fatal_witness :
    compress_pptx_with_quality stubSysUtf8Fail
      [⟨"a.xml".toList, [255]⟩] 0 = .error .encodingError :=
  invalid_utf8_fatal stubSysUtf8Fail [⟨"a.xml".toList, [255]⟩] 0
    ⟨"a.xml".toList, [255]⟩ (List.mem_singleton.2 rfl) (by decide) rfl

end CompressOffice
